import Mathlib

/-!
Shallow embedding of the "secretsEditor" Redux slice and its thunks
(`openSecret`, `editCurrentlyShownSecret`) from the repository source.

A secret is a JavaScript object: an insertion-ordered record of string keys.
We model an object as an association list `List (String × JsVal)` whose key
order is the insertion order; JavaScript objects never hold two entries with
the same key, so theorems that need it carry a `Nodup` hypothesis on the key
list.  Property assignment to an existing key keeps its position and updates
the value; assignment to a fresh key appends; `delete` removes the entry.
(Abstractions: we model own properties only, and we do not reproduce the
special enumeration order JavaScript gives to integer-like keys.)
-/

namespace SecretsEditor

/-- A JavaScript value as far as the slice inspects one: `undefined`, a
string, an array, or a plain object (insertion-ordered fields). -/
inductive JsVal where
  | undef : JsVal
  | str : String → JsVal
  | arr : List JsVal → JsVal
  | obj : List (String × JsVal) → JsVal

/-- A JavaScript object: keys in insertion order. -/
abbrev Obj := List (String × JsVal)

/-- `Object.keys o`. -/
def objKeys (o : Obj) : List String := o.map Prod.fst

/-- Property read `o[k]`: the value of the first (only) entry named `k`. -/
def objGet (o : Obj) (k : String) : Option JsVal :=
  (o.find? (fun kv => kv.1 == k)).map Prod.snd

/-- The JavaScript `k in o` test (own properties). -/
def objHasKey (o : Obj) (k : String) : Bool := decide (k ∈ objKeys o)

/-- Property write `o[k] = v`: update in place when `k` exists, else append. -/
def objSet (o : Obj) (k : String) (v : JsVal) : Obj :=
  if k ∈ objKeys o then o.map (fun kv => if kv.1 = k then (k, v) else kv)
  else o ++ [(k, v)]

/-- `delete o[k]`. -/
def objDelete (o : Obj) (k : String) : Obj := o.filter (fun kv => kv.1 != k)

/-- Version-stamped metadata of a stored secret (the fields the slice uses:
`metadata.created_time` and `metadata.version`). -/
structure Metadata where
  created_time : String
  version : Nat

/-- A secret together with its metadata (port `SecretWithMetadata`). -/
structure SecretWithMetadata where
  secret : Obj
  metadata : Metadata

/-- The slice state (`SecretsEditorState`); the whole slice state is
`Option SecretsEditorState`, `none` being the initial `null`. -/
structure SecretsEditorState where
  dirPath : String
  basename : String
  secretWithMetadata : Option SecretWithMetadata
  hiddenKeys : List String
  isBeingUpdated : Bool

/-- Build a slice state from its five fields (used to quantify theorems
over arbitrary states with a loaded secret). -/
def mkState (dirPath basename : String)
    (secretWithMetadata : Option SecretWithMetadata)
    (hiddenKeys : List String) (isBeingUpdated : Bool) :
    SecretsEditorState :=
  { dirPath := dirPath
    basename := basename
    secretWithMetadata := secretWithMetadata
    hiddenKeys := hiddenKeys
    isBeingUpdated := isBeingUpdated }

inductive HideOrReveal where
  | hide : HideOrReveal
  | reveal : HideOrReveal

/-- The `action`-dependent part of `EditSecretParams`. -/
inductive EditAction where
  | addOrOverwriteKeyValue (value : String) : EditAction
  | renameKey (newKey : String) : EditAction
  | renameKeyAndUpdateValue (newKey : String) (newValue : String) : EditAction
  | removeKeyValue : EditAction
  | hideOrRevealKey (type : HideOrReveal) : EditAction

/-- `EditSecretParams`: the targeted `key` plus the action.  (In the source
the `hideOrRevealKey` variant repeats the `key` field; destructuring binds
the same value, so one field suffices.) -/
structure EditSecretParams where
  key : String
  action : EditAction

/-- The reserved bookkeeping key. -/
def extraKey : String := (".onyxia")

/-- The JavaScript encoding of an `ExtraValue` record
`{ hiddenKeys, keysOrdering }` as stored under `extraKey`. -/
def extraValue (hiddenKeys keysOrdering : List String) : JsVal :=
  .obj [(("hiddenKeys"), .arr (hiddenKeys.map .str)),
        (("keysOrdering"), .arr (keysOrdering.map .str))]

/-- The local `renameKey` helper of the `editSecretStarted` reducer: clone
the record, delete every property of `secret`, then re-insert the clone's
entries in order, writing the target key's entry under `newKey`. -/
def renameKey (secret : Obj) (key newKey : String) : Obj :=
  secret.foldl
    (fun acc kv => objSet acc (if kv.1 = key then newKey else kv.1) kv.2) []

/-- The effect of `editSecretStarted` on the secret record. -/
def editSecret (secret : Obj) (payload : EditSecretParams) : Obj :=
  match payload.action with
  | .addOrOverwriteKeyValue value => objSet secret payload.key (.str value)
  | .removeKeyValue => objDelete secret payload.key
  | .renameKeyAndUpdateValue newKey newValue =>
      objSet (renameKey secret payload.key newKey) newKey (.str newValue)
  | .renameKey newKey => renameKey secret payload.key newKey
  | .hideOrRevealKey _ => secret

/-- The effect of `editSecretStarted` on `hiddenKeys`: `hide` pushes the key,
`reveal` filters out every occurrence. -/
def editHidden (hiddenKeys : List String) (payload : EditSecretParams) :
    List String :=
  match payload.action with
  | .hideOrRevealKey t =>
    match t with
    | .hide => hiddenKeys ++ [payload.key]
    | .reveal => hiddenKeys.filter (fun key_i => key_i != payload.key)
  | _ => hiddenKeys

/-- Reducer `openStarted`: replaces the state outright. -/
def openStarted (dirPath basename : String) : Option SecretsEditorState :=
  some { dirPath := dirPath
         basename := basename
         secretWithMetadata := none
         hiddenKeys := []
         isBeingUpdated := true }

/-- Reducer `openCompleted`.  A failing `assert` makes the dispatch throw,
leaving the store state unchanged, which we model by returning the input. -/
def openCompleted (state : Option SecretsEditorState)
    (secretWithMetadata : SecretWithMetadata) (hiddenKeys : List String) :
    Option SecretsEditorState :=
  match state with
  | none => none
  | some s =>
      some { s with
             secretWithMetadata := some secretWithMetadata
             hiddenKeys := hiddenKeys
             isBeingUpdated := false }

/-- Reducer `editSecretStarted`. -/
def editSecretStarted (state : Option SecretsEditorState)
    (payload : EditSecretParams) : Option SecretsEditorState :=
  match state with
  | none => none
  | some s =>
    match s.secretWithMetadata with
    | none => some s
    | some swm =>
        some { s with
               secretWithMetadata :=
                 some { swm with secret := editSecret swm.secret payload }
               hiddenKeys := editHidden s.hiddenKeys payload
               isBeingUpdated := true }

/-- Reducer `editSecretCompleted`; `now` stands for
`new Date().toISOString()`. -/
def editSecretCompleted (state : Option SecretsEditorState) (now : String) :
    Option SecretsEditorState :=
  match state with
  | none => none
  | some s =>
    match s.secretWithMetadata with
    | none => some s
    | some swm =>
        some { s with
               secretWithMetadata :=
                 some { swm with
                        metadata :=
                          { created_time := now
                            version := swm.metadata.version + 1 } }
               isBeingUpdated := false }

/-- Decode a JavaScript array all of whose elements are strings; `none` when
some element is not a string (the reducer asserts
`arr.every(key => typeof key === "string")`). -/
def asStringList : List JsVal → Option (List String)
  | [] => some []
  | .str s :: rest => (asStringList rest).map (fun tail => s :: tail)
  | .undef :: _ => none
  | .arr _ :: _ => none
  | .obj _ :: _ => none

/-- Decode `v` when it is an array of strings (`v instanceof Array &&
v.every(key => typeof key === "string")`). -/
def asStringArray : JsVal → Option (List String)
  | .arr elems => asStringList elems
  | _ => none

/-- Is `v` an array containing only strings?  (Spec-side predicate, the
claim's criterion for a non-malformed bookkeeping field: "not an array, or
containing a non-string" means this is `false`.) -/
def isStringArray : JsVal → Bool
  | .arr elems =>
      elems.all (fun e =>
        match e with
        | .str _ => true
        | _ => false)
  | _ => false

/-- Spec-side well-formedness of the stored bookkeeping entry, transcribed
from the claim's words: the `.onyxia` entry is present and an object, both
its `hiddenKeys` and `keysOrdering` fields are present, and each is an
array containing only strings.  Every other stored secret is "absent or
malformed" in the claim's sense. -/
def extraEntryWellFormed (secret : Obj) : Bool :=
  match objGet secret extraKey with
  | some (.obj fields) =>
    match objGet fields ("hiddenKeys"), objGet fields ("keysOrdering") with
    | some hv, some kv => isStringArray hv && isStringArray kv
    | _, _ => false
  | _ => false

/-- The `try`/`catch` block of the `openSecret` thunk: destructure
`secret[extraKey]`, assert both fields are arrays of strings, and filter
`keysOrdering` down to keys present in the secret; any failure (missing
entry, non-object entry, missing field, non-array field, non-string
element) falls back to no hidden keys and the stored key order. -/
def extractExtra (secret : Obj) : List String × List String :=
  match objGet secret extraKey with
  | some (.obj fields) =>
    match objGet fields ("hiddenKeys"), objGet fields ("keysOrdering") with
    | some hv, some kv =>
      match asStringArray hv, asStringArray kv with
      | some hiddenKeys, some keysOrdering =>
          (hiddenKeys, keysOrdering.filter (fun key => objHasKey secret key))
      | _, _ => ([], objKeys secret)
    | _, _ => ([], objKeys secret)
  | _ => ([], objKeys secret)

/-- The `orderedSecret` construction of the `openSecret` thunk: copy the
secret, delete the bookkeeping entry, delete every key of `keysOrdering`,
then re-insert those keys in `keysOrdering`'s order with their values read
from the stored secret. -/
def orderSecret (secret : Obj) (keysOrdering : List String) : Obj :=
  let o1 := objDelete secret extraKey
  let o2 := keysOrdering.foldl (fun acc key => objDelete acc key) o1
  keysOrdering.foldl
    (fun acc key => objSet acc key ((objGet secret key).getD .undef)) o2

/-- The secret sent by `editCurrentlyShownSecret`'s `put` call:
`{...secret, [extraKey]: { hiddenKeys, keysOrdering: Object.keys(secret) }}`. -/
def putPayloadSecret (secret : Obj) (hiddenKeys : List String) : Obj :=
  objSet secret extraKey (extraValue hiddenKeys (objKeys secret))

/-- Argument of the secrets-manager client's `put`. -/
structure PutParams where
  path : String
  secret : Obj

/-- The actions the two thunks dispatch into the state container. -/
inductive Event where
  | openStartedEvt (dirPath basename : String) : Event
  | errorOcurred (errorMessage : String) : Event
  | navigationTowardSecretSuccess (secretWithMetadata : SecretWithMetadata)
      (currentPath : String) (hiddenKeys : List String) : Event
  | editSecretStartedEvt (params : EditSecretParams) : Event
  | editSecretCompletedEvt : Event

/-- Is the event the generic error event? -/
def isErrorEvent : Event → Bool
  | .errorOcurred _ => true
  | _ => false

/-- Is the event a success/completion event for a remote request? -/
def isSuccessEvent : Event → Bool
  | .navigationTowardSecretSuccess _ _ _ => true
  | .editSecretCompletedEvt => true
  | _ => false

/-- Result of an awaited remote call: `ok` or an `Error` whose `message` is
the carried string. -/
inductive RemoteResult (α : Type) where
  | ok (value : α) : RemoteResult α
  | err (message : String) : RemoteResult α

/-- The `openSecret` thunk as the list of actions it dispatches, given the
outcome of the remote `get`.  (`secretPath` names the path the source reads
from the surrounding state.) -/
def openSecret (dirPath basename secretPath : String)
    (getResult : RemoteResult SecretWithMetadata) : List Event :=
  Event.openStartedEvt dirPath basename ::
  (match getResult with
   | .err message => [Event.errorOcurred message]
   | .ok secretWithMetadata =>
     let secret := secretWithMetadata.secret
     let hk := extractExtra secret
     [Event.navigationTowardSecretSuccess
        { secret := orderSecret secret hk.2
          metadata := secretWithMetadata.metadata }
        secretPath hk.1])

/-- The early-return "Optimizations" block of `editCurrentlyShownSecret`:
a no-op edit is discarded before anything is dispatched.  JavaScript's
`secret[key] === value` with a string `value` holds exactly when the
property is a string with the same characters. -/
def shouldSkipEdit (secret : Obj) (params : EditSecretParams) : Bool :=
  match params.action with
  | .addOrOverwriteKeyValue value =>
    match objGet secret params.key with
    | some (.str s) => s == value
    | _ => false
  | .renameKey newKey => params.key == newKey
  | .renameKeyAndUpdateValue newKey newValue =>
    params.key == newKey &&
    (match objGet secret params.key with
     | some (.str s) => s == newValue
     | _ => false)
  | .removeKeyValue => !objHasKey secret params.key
  | .hideOrRevealKey _ => false

/-- The `editCurrentlyShownSecret` thunk, while a secret is shown with
record `secret`, hidden keys `hiddenKeys` and path `path`: the list of
dispatched actions together with the argument of the (at most one) `put`
call.  The source re-reads the store inside the `put` argument *after*
dispatching `editSecretStarted`, so the payload is built from the edited
secret and hidden keys. -/
def editCurrentlyShownSecret (params : EditSecretParams) (path : String)
    (secret : Obj) (hiddenKeys : List String)
    (putResult : RemoteResult Unit) : List Event × Option PutParams :=
  if shouldSkipEdit secret params then ([], none)
  else
    let secret' := editSecret secret params
    let hiddenKeys' := editHidden hiddenKeys params
    (Event.editSecretStartedEvt params ::
       [match putResult with
        | .err message => Event.errorOcurred message
        | .ok _ => Event.editSecretCompletedEvt],
     some { path := path, secret := putPayloadSecret secret' hiddenKeys' })

/-- One dispatched action of the slice, for reachability arguments. -/
inductive SliceOp where
  | openStartedOp (dirPath basename : String) : SliceOp
  | openCompletedOp (secretWithMetadata : SecretWithMetadata)
      (hiddenKeys : List String) : SliceOp
  | editSecretStartedOp (params : EditSecretParams) : SliceOp
  | editSecretCompletedOp (now : String) : SliceOp

/-- Apply one slice action to the state via the reducers. -/
def applyOp (state : Option SecretsEditorState) : SliceOp →
    Option SecretsEditorState
  | .openStartedOp dirPath basename => openStarted dirPath basename
  | .openCompletedOp swm hiddenKeys => openCompleted state swm hiddenKeys
  | .editSecretStartedOp params => editSecretStarted state params
  | .editSecretCompletedOp now => editSecretCompleted state now

/-- Does `hiddenKeys` only name keys declared in the loaded secret? -/
def hiddenKeysSubset (state : Option SecretsEditorState) : Bool :=
  match state with
  | none => true
  | some s =>
    match s.secretWithMetadata with
    | none => true
    | some swm =>
        s.hiddenKeys.all (fun k => decide (k ∈ objKeys swm.secret))

/-- Side conditions under which an action cannot break
`hiddenKeysSubset`: `openCompleted` payloads already satisfy the subset
property, `hide` only targets declared keys, and no removal or rename
targets a currently hidden key. -/
def opSafe (state : Option SecretsEditorState) (op : SliceOp) : Bool :=
  match op with
  | .openStartedOp _ _ => true
  | .openCompletedOp swm hiddenKeys =>
      hiddenKeys.all (fun k => decide (k ∈ objKeys swm.secret))
  | .editSecretCompletedOp _ => true
  | .editSecretStartedOp params =>
    match state with
    | none => true
    | some s =>
      match s.secretWithMetadata with
      | none => true
      | some swm =>
        match params.action with
        | .hideOrRevealKey t =>
          match t with
          | .hide => decide (params.key ∈ objKeys swm.secret)
          | .reveal => true
        | .addOrOverwriteKeyValue _ => true
        | .removeKeyValue => !s.hiddenKeys.contains params.key
        | .renameKey _ => !s.hiddenKeys.contains params.key
        | .renameKeyAndUpdateValue _ _ => !s.hiddenKeys.contains params.key

/-- States reachable from the initial `null` state through dispatches whose
payloads respect `opSafe`. -/
inductive ReachableOk : Option SecretsEditorState → Prop where
  | init : ReachableOk none
  | step (state : Option SecretsEditorState) (op : SliceOp) :
      ReachableOk state → opSafe state op = true →
      ReachableOk (applyOp state op)

theorem objSet_of_not_mem (o : Obj) (k : String) (v : JsVal)
    (h : k ∉ objKeys o) : objSet o k v = o ++ [(k, v)] := by
  simp [objSet, h]

theorem objSet_of_mem (o : Obj) (k : String) (v : JsVal)
    (h : k ∈ objKeys o) :
    objSet o k v = o.map (fun kv => if kv.1 = k then (k, v) else kv) := by
  simp [objSet, h]

theorem objKeys_objSet_of_mem (o : Obj) (k : String) (v : JsVal)
    (h : k ∈ objKeys o) : objKeys (objSet o k v) = objKeys o := by
  rw [objSet_of_mem o k v h]
  simp only [objKeys, List.map_map]
  refine List.map_congr_left ?_
  intro kv _
  by_cases hk : kv.1 = k <;> simp [hk]

theorem objKeys_objSet_superset (o : Obj) (k : String) (v : JsVal)
    (j : String) (h : j ∈ objKeys o) : j ∈ objKeys (objSet o k v) := by
  by_cases hk : k ∈ objKeys o
  · rw [objKeys_objSet_of_mem o k v hk]; exact h
  · rw [objSet_of_not_mem o k v hk]
    simp only [objKeys, List.map_append, List.mem_append]
    exact Or.inl h

theorem mem_objKeys_objSet_self (o : Obj) (k : String) (v : JsVal) :
    k ∈ objKeys (objSet o k v) := by
  by_cases hk : k ∈ objKeys o
  · rw [objKeys_objSet_of_mem o k v hk]; exact hk
  · rw [objSet_of_not_mem o k v hk]
    simp [objKeys]

theorem foldl_objSet_eq_append (f : String → String) (l : Obj) :
    ∀ acc : Obj, (l.map (fun kv => f kv.1)).Nodup →
      (∀ kv ∈ l, f kv.1 ∉ objKeys acc) →
      l.foldl (fun a kv => objSet a (f kv.1) kv.2) acc
        = acc ++ l.map (fun kv => (f kv.1, kv.2)) := by
  induction l with
  | nil => intro acc _ _; simp
  | cons kv t ih =>
    intro acc hnd hfresh
    rw [List.map_cons, List.nodup_cons] at hnd
    simp only [List.foldl_cons, List.map_cons]
    rw [objSet_of_not_mem _ _ _ (hfresh kv (List.mem_cons_self kv t))]
    rw [ih (acc ++ [(f kv.1, kv.2)]) hnd.2 ?_]
    · simp
    · intro kv' hkv' hmem
      simp only [objKeys, List.map_append, List.mem_append] at hmem
      rcases hmem with h1 | h1
      · exact hfresh kv' (List.mem_cons_of_mem kv hkv') h1
      · simp only [List.map_cons, List.map_nil, List.mem_singleton] at h1
        exact hnd.1 (h1 ▸ List.mem_map_of_mem (fun kv => f kv.1) hkv')

theorem renameKey_eq_map (secret : Obj) (key newKey : String)
    (hnd : (objKeys secret).Nodup)
    (hcoll : key ∈ objKeys secret → newKey ∈ objKeys secret →
      newKey = key) :
    renameKey secret key newKey
      = secret.map
          (fun kv => (if kv.1 = key then newKey else kv.1, kv.2)) := by
  have hinj : ∀ a ∈ objKeys secret, ∀ b ∈ objKeys secret,
      (if a = key then newKey else a) = (if b = key then newKey else b) →
      a = b := by
    intro a ha b hb hab
    by_cases hak : a = key <;> by_cases hbk : b = key
    · rw [hak, hbk]
    · rw [if_pos hak, if_neg hbk] at hab
      exact absurd (hcoll (hak ▸ ha) (hab ▸ hb)) (fun he => hbk (hab ▸ he))
    · rw [if_neg hak, if_pos hbk] at hab
      exact absurd (hcoll (hbk ▸ hb) (hab ▸ ha)) (fun he => hak (hab ▸ he))
    · rwa [if_neg hak, if_neg hbk] at hab
  have hmnd : (secret.map (fun kv => if kv.1 = key then newKey else kv.1)).Nodup := by
    have := (hnd.map_on hinj)
    simpa [objKeys, List.map_map, Function.comp] using this
  have := foldl_objSet_eq_append
      (fun x => if x = key then newKey else x) secret [] hmnd
      (by intro kv _ h; simp [objKeys] at h)
  simpa [renameKey] using this

theorem mem_objKeys_foldl_objSet (f : String → String) (l : Obj) :
    ∀ (acc : Obj) (j : String),
      (j ∈ objKeys acc ∨ ∃ kv ∈ l, f kv.1 = j) →
      j ∈ objKeys (l.foldl (fun a kv => objSet a (f kv.1) kv.2) acc) := by
  induction l with
  | nil =>
    intro acc j h
    rcases h with h | ⟨kv, hkv, _⟩
    · exact h
    · cases hkv
  | cons kv t ih =>
    intro acc j h
    simp only [List.foldl_cons]
    apply ih
    rcases h with h | ⟨kv', hkv', hf⟩
    · exact Or.inl (objKeys_objSet_superset _ _ _ _ h)
    · rcases List.mem_cons.mp hkv' with rfl | hm
      · exact Or.inl (hf ▸ mem_objKeys_objSet_self acc (f kv'.1) kv'.2)
      · exact Or.inr ⟨kv', hm, hf⟩

theorem mem_objKeys_renameKey (secret : Obj) (key newKey j : String)
    (hj : j ∈ objKeys secret) (hne : j ≠ key) :
    j ∈ objKeys (renameKey secret key newKey) := by
  apply mem_objKeys_foldl_objSet (fun x => if x = key then newKey else x)
  right
  simp only [objKeys, List.mem_map] at hj
  rcases hj with ⟨kv, hkv, hkvj⟩
  exact ⟨kv, hkv, by rw [hkvj, if_neg hne]⟩

theorem objGet_of_mem_nodup (o : Obj) (kv : String × JsVal)
    (hnd : (objKeys o).Nodup) (hmem : kv ∈ o) : objGet o kv.1 = some kv.2 := by
  induction o with
  | nil => cases hmem
  | cons hd t ih =>
    simp only [objKeys, List.map_cons, List.nodup_cons] at hnd
    rcases List.mem_cons.mp hmem with rfl | h
    · simp [objGet, List.find?_cons_of_pos]
    · have hne : (hd.1 == kv.1) = false := by
        simp only [beq_eq_false_iff_ne, ne_eq]
        intro he
        exact hnd.1 (he ▸ List.mem_map_of_mem Prod.fst h)
      have : (fun x : String × JsVal => x.1 == kv.1) hd = false := hne
      rw [objGet, List.find?_cons_of_neg _ (by simp [this]), ← objGet]
      exact ih (by simpa [objKeys] using hnd.2) h

theorem objGet_append_right (l₁ l₂ : Obj) (k : String)
    (h : k ∉ objKeys l₁) : objGet (l₁ ++ l₂) k = objGet l₂ k := by
  induction l₁ with
  | nil => rfl
  | cons hd t ih =>
    simp only [objKeys, List.map_cons, List.mem_cons, not_or] at h
    rw [List.cons_append, objGet,
        List.find?_cons_of_neg _ (by simpa using Ne.symm h.1), ← objGet]
    exact ih (by simpa [objKeys] using h.2)

theorem objGet_append_left (l₁ l₂ : Obj) (k : String) (v : JsVal)
    (h : objGet l₁ k = some v) : objGet (l₁ ++ l₂) k = some v := by
  induction l₁ with
  | nil => simp [objGet] at h
  | cons hd t ih =>
    by_cases hhd : (hd.1 == k) = true
    · rw [objGet, List.find?_cons_of_pos _ (by simpa using hhd)] at h
      rw [List.cons_append, objGet, List.find?_cons_of_pos _ (by simpa using hhd)]
      exact h
    · rw [objGet, List.find?_cons_of_neg _ (by simpa using hhd), ← objGet] at h
      rw [List.cons_append, objGet,
          List.find?_cons_of_neg _ (by simpa using hhd), ← objGet]
      exact ih h

theorem foldl_objDelete_eq_nil (keys : List String) :
    ∀ o : Obj, (∀ kv ∈ o, kv.1 ∈ keys) →
      keys.foldl (fun acc key => objDelete acc key) o = [] := by
  induction keys with
  | nil =>
    intro o h
    cases o with
    | nil => rfl
    | cons hd t => cases h hd (List.mem_cons_self hd t)
  | cons k ks ih =>
    intro o h
    simp only [List.foldl_cons]
    apply ih
    intro kv hkv
    have hin := List.mem_filter.mp hkv
    rcases List.mem_cons.mp (h kv hin.1) with h1 | h1
    · exact absurd h1 (by simpa using hin.2)
    · exact h1

theorem foldl_objSet_getD (p : Obj) (s : Obj) :
    ∀ acc : Obj, (objKeys s).Nodup →
      (∀ kv ∈ s, objGet p kv.1 = some kv.2) →
      (∀ kv ∈ s, kv.1 ∉ objKeys acc) →
      (objKeys s).foldl
          (fun a key => objSet a key ((objGet p key).getD .undef)) acc
        = acc ++ s := by
  induction s with
  | nil => intro acc _ _ _; simp [objKeys]
  | cons kv t ih =>
    intro acc hnd hget hfresh
    simp only [objKeys, List.map_cons, List.nodup_cons] at hnd
    simp only [objKeys, List.map_cons, List.foldl_cons]
    rw [hget kv (List.mem_cons_self kv t), Option.getD_some,
        objSet_of_not_mem _ _ _ (hfresh kv (List.mem_cons_self kv t))]
    have := ih (acc ++ [(kv.1, kv.2)])
        (by simpa [objKeys] using hnd.2)
        (fun kv' h => hget kv' (List.mem_cons_of_mem kv h)) ?_
    · simpa [objKeys] using this
    · intro kv' hkv' hmem
      simp only [objKeys, List.map_append, List.mem_append] at hmem
      rcases hmem with h1 | h1
      · exact hfresh kv' (List.mem_cons_of_mem kv hkv') h1
      · simp only [List.map_cons, List.map_nil, List.mem_singleton] at h1
        exact hnd.1 (h1 ▸ List.mem_map_of_mem Prod.fst hkv')

theorem filter_ne_map_set (o : Obj) (k : String) (v : JsVal) :
    ((o.map (fun kv => if kv.1 = k then (k, v) else kv)).filter
        (fun kv => kv.1 != k))
      = o.filter (fun kv => kv.1 != k) := by
  induction o with
  | nil => rfl
  | cons hd t ih =>
    by_cases h : hd.1 = k
    · simp only [List.map_cons, if_pos h, List.filter_cons]
      rw [show ((k, v).1 != k) = false by simp,
          show (hd.1 != k) = false by simp [h]]
      exact ih
    · simp only [List.map_cons, if_neg h, List.filter_cons]
      rw [show (hd.1 != k) = true by simp [h]]
      simp only [ih]

theorem filter_objSet_ne (o : Obj) (k : String) (v : JsVal) :
    (objSet o k v).filter (fun kv => kv.1 != k)
      = o.filter (fun kv => kv.1 != k) := by
  by_cases hk : k ∈ objKeys o
  · rw [objSet_of_mem o k v hk, filter_ne_map_set]
  · rw [objSet_of_not_mem o k v hk, List.filter_append]
    simp

theorem filter_objDelete_ne (o : Obj) (k : String) :
    (objDelete o k).filter (fun kv => kv.1 != k)
      = o.filter (fun kv => kv.1 != k) := by
  simp [objDelete, List.filter_filter]

theorem mem_objKeys_objDelete (o : Obj) (k j : String)
    (hj : j ∈ objKeys o) (hne : j ≠ k) : j ∈ objKeys (objDelete o k) := by
  simp only [objKeys, List.mem_map] at hj
  rcases hj with ⟨kv, hkv, hkvj⟩
  simp only [objKeys, objDelete, List.mem_map]
  exact ⟨kv, List.mem_filter.mpr ⟨hkv, by simp [hkvj, hne]⟩, hkvj⟩

theorem asStringList_map_str (l : List String) :
    asStringList (l.map .str) = some l := by
  induction l with
  | nil => rfl
  | cons hd t ih => simp [asStringList, ih]

theorem asStringList_eq_some (elems : List JsVal) :
    ∀ l : List String, asStringList elems = some l →
      elems = l.map JsVal.str := by
  induction elems with
  | nil =>
    intro l hl
    rw [show asStringList [] = some [] from rfl] at hl
    cases hl
    rfl
  | cons hd rest ih =>
    intro l hl
    cases hd with
    | str s =>
      rw [show asStringList (JsVal.str s :: rest)
            = (asStringList rest).map (fun tail => s :: tail) from rfl,
          Option.map_eq_some'] at hl
      rcases hl with ⟨t, ht, hlt⟩
      rw [← hlt, List.map_cons, ih t ht]
    | undef => simp [asStringList] at hl
    | arr a => simp [asStringList] at hl
    | obj o => simp [asStringList] at hl

theorem asStringArray_eq_some (v : JsVal) (l : List String)
    (h : asStringArray v = some l) : v = .arr (l.map JsVal.str) := by
  cases v with
  | arr elems =>
    rw [asStringList_eq_some elems l (by simpa [asStringArray] using h)]
  | undef => simp [asStringArray] at h
  | str s => simp [asStringArray] at h
  | obj o => simp [asStringArray] at h

theorem isStringArray_eq_isSome (v : JsVal) :
    isStringArray v = (asStringArray v).isSome := by
  cases v with
  | undef => rfl
  | str s => rfl
  | obj o => rfl
  | arr elems =>
    simp only [isStringArray, asStringArray]
    induction elems with
    | nil => rfl
    | cons hd rest ih =>
      cases hd with
      | str s => simpa [asStringList, List.all_cons] using ih
      | undef => simp [asStringList, List.all_cons]
      | arr a => simp [asStringList, List.all_cons]
      | obj o2 => simp [asStringList, List.all_cons]

/--
C8: with a loaded secret, `editSecretCompleted` bumps `metadata.version` by
one, stamps `metadata.created_time` with the current time, clears
`isBeingUpdated`, and leaves the secret record, `hiddenKeys`, `dirPath` and
`basename` untouched.
-/
theorem editSecretCompleted_bumps_version_only (d b : String)
    (swm : SecretWithMetadata) (hidden : List String) (u : Bool)
    (now : String) :
    editSecretCompleted (some (mkState d b (some swm) hidden u)) now
      = some (mkState d b
          (some { secret := swm.secret
                  metadata := { created_time := now
                                version := swm.metadata.version + 1 } })
          hidden false) := rfl

/--
C6: with a loaded secret, `editSecretStarted` with a `hide` action leaves
the secret record (hence every key's value) unchanged and appends the key
to `hiddenKeys`; as a set the hidden keys gain exactly `k`, and hiding an
already-hidden key leaves the hidden-key set unchanged.
-/
theorem hide_adds_key_to_hidden_set (d b : String)
    (swm : SecretWithMetadata) (hidden : List String) (u : Bool)
    (k : String) :
    editSecretStarted (some (mkState d b (some swm) hidden u))
        { key := k, action := .hideOrRevealKey .hide }
      = some (mkState d b (some swm) (hidden ++ [k]) true) ∧
    (∀ j, j ∈ hidden ++ [k] ↔ j ∈ hidden ∨ j = k) ∧
    (k ∈ hidden → (hidden ++ [k]).toFinset = hidden.toFinset) := by
  refine ⟨rfl, ?_, ?_⟩
  · intro j; simp
  · intro hk
    simp only [List.toFinset_append]
    rw [Finset.union_eq_left.mpr (by simp [hk])]

/--
C9: with a loaded secret, `reveal` removes every occurrence of the key from
`hiddenKeys` (a filter, so the relative order of the remaining entries is
kept and revealing twice equals revealing once), while `hide` appends the
key unconditionally, so hiding an already-hidden key leaves a duplicate in
the `hiddenKeys` list.
-/
theorem reveal_filters_hide_appends (d b : String)
    (swm : SecretWithMetadata) (hidden : List String) (u : Bool)
    (k : String) :
    editSecretStarted (some (mkState d b (some swm) hidden u))
        { key := k, action := .hideOrRevealKey .reveal }
      = some (mkState d b (some swm)
          (hidden.filter (fun j => j != k)) true) ∧
    k ∉ hidden.filter (fun j => j != k) ∧
    (hidden.filter (fun j => j != k)).Sublist hidden ∧
    editHidden (editHidden hidden { key := k, action := .hideOrRevealKey .reveal })
        { key := k, action := .hideOrRevealKey .reveal }
      = editHidden hidden { key := k, action := .hideOrRevealKey .reveal } ∧
    editSecretStarted (some (mkState d b (some swm) hidden u))
        { key := k, action := .hideOrRevealKey .hide }
      = some (mkState d b (some swm) (hidden ++ [k]) true) ∧
    (k ∈ hidden → ¬ (hidden ++ [k]).Nodup) := by
  refine ⟨rfl, ?_, ?_, ?_, rfl, ?_⟩
  · simp
  · exact List.filter_sublist hidden
  · simp [editHidden, List.filter_filter]
  · intro hk hnd
    rcases List.nodup_append.mp hnd with ⟨-, -, hdisj⟩
    exact hdisj hk (List.mem_singleton.mpr rfl)

/--
C1 (amended): every `editSecretStarted` edit leaves the values and the
relative insertion order of keys other than the targeted one unchanged, and
the rename actions move the old key's entry to `newKey` in place — provided
the new key does not already name a different existing entry (JavaScript
objects have no duplicate keys, hence the `Nodup` hypothesis).
-/
theorem edits_preserve_other_keys (secret : Obj) (k nk v nv : String)
    (hnd : (objKeys secret).Nodup)
    (hcoll : k ∈ objKeys secret → nk ∈ objKeys secret → nk = k) :
    ((editSecret secret { key := k, action := .addOrOverwriteKeyValue v }).filter
        (fun kv => kv.1 != k) = secret.filter (fun kv => kv.1 != k)) ∧
    ((editSecret secret { key := k, action := .removeKeyValue }).filter
        (fun kv => kv.1 != k) = secret.filter (fun kv => kv.1 != k)) ∧
    (editSecret secret { key := k, action := .renameKey nk }
      = secret.map (fun kv => if kv.1 = k then (nk, kv.2) else kv)) ∧
    (k ∈ objKeys secret →
      editSecret secret { key := k, action := .renameKeyAndUpdateValue nk nv }
        = secret.map (fun kv => if kv.1 = k then (nk, .str nv) else kv)) := by
  have hrn := renameKey_eq_map secret k nk hnd hcoll
  refine ⟨filter_objSet_ne secret k (.str v), filter_objDelete_ne secret k,
          ?_, ?_⟩
  · rw [show editSecret secret { key := k, action := .renameKey nk }
          = renameKey secret k nk from rfl, hrn]
    refine List.map_congr_left ?_
    intro kv _
    by_cases h : kv.1 = k <;> simp [h]
  · intro hk
    rw [show editSecret secret
            { key := k, action := .renameKeyAndUpdateValue nk nv }
          = objSet (renameKey secret k nk) nk (.str nv) from rfl, hrn]
    have hmem : nk ∈ objKeys
        (secret.map (fun kv => (if kv.1 = k then nk else kv.1, kv.2))) := by
      simp only [objKeys, List.map_map]
      rcases List.mem_map.mp hk with ⟨kv0, hkv0, hkv0k⟩
      refine List.mem_map.mpr ⟨kv0, hkv0, ?_⟩
      simp [Function.comp, hkv0k]
    rw [objSet_of_mem _ _ _ hmem, List.map_map]
    refine List.map_congr_left ?_
    intro kv hkv
    by_cases h : kv.1 = k
    · simp [Function.comp, h]
    · have hne2 : kv.1 ≠ nk := by
        intro he
        have hnkmem : nk ∈ objKeys secret :=
          he ▸ List.mem_map_of_mem Prod.fst hkv
        exact h (he.trans (hcoll hk hnkmem))
      simp [Function.comp, h, hne2]

/--
C1 counterexample: in the secret `{a: "1", b: "2"}`, renaming `b` to the
already-present key `a` overwrites `a`'s value (a key other than the
targeted `b`) and drops the entry count to one, so other keys' values and
positions are not preserved by `renameKey` as the claim states.
-/
theorem rename_collision_counterexample :
    editSecret [(("a"), .str ("1")), (("b"), .str ("2"))]
        { key := ("b"), action := .renameKey ("a") }
      = [(("a"), .str ("2"))] ∧
    objGet [(("a"), .str ("1")), (("b"), .str ("2"))] ("a")
      = some (.str ("1")) := ⟨rfl, rfl⟩

/-- Witness for the amended C1 theorem at a concrete collision-free rename. -/
theorem edits_preserve_other_keys_witness :
    editSecret [(("a"), JsVal.str ("1")), (("b"), JsVal.str ("2"))]
        { key := ("b"), action := .renameKey ("c") }
      = [(("a"), JsVal.str ("1")), (("c"), JsVal.str ("2"))] :=
  ((edits_preserve_other_keys
      [(("a"), JsVal.str ("1")), (("b"), JsVal.str ("2"))]
      ("b") ("c") ("x") ("y") (by decide) (by decide)).2.2.1).trans rfl

theorem hiddenKeysSubset_some_iff (s : SecretsEditorState)
    (swm : SecretWithMetadata) (hswm : s.secretWithMetadata = some swm) :
    hiddenKeysSubset (some s) = true ↔
      ∀ j ∈ s.hiddenKeys, j ∈ objKeys swm.secret := by
  simp [hiddenKeysSubset, hswm, List.all_eq_true]

theorem hiddenKeysSubset_applyOp (state : Option SecretsEditorState)
    (op : SliceOp) (hinv : hiddenKeysSubset state = true)
    (hsafe : opSafe state op = true) :
    hiddenKeysSubset (applyOp state op) = true := by
  cases op with
  | openStartedOp d b => rfl
  | openCompletedOp swm hidden =>
    cases state with
    | none => rfl
    | some s =>
      simpa [applyOp, openCompleted, hiddenKeysSubset, opSafe] using hsafe
  | editSecretCompletedOp now =>
    cases state with
    | none => rfl
    | some s =>
      cases hswm : s.secretWithMetadata with
      | none => simpa [applyOp, editSecretCompleted, hswm] using hinv
      | some swm =>
        simp only [applyOp, editSecretCompleted, hswm]
        simpa [hiddenKeysSubset, hswm] using hinv
  | editSecretStartedOp params =>
    cases state with
    | none => rfl
    | some s =>
      cases hswm : s.secretWithMetadata with
      | none => simpa [applyOp, editSecretStarted, hswm] using hinv
      | some swm =>
        rw [hiddenKeysSubset_some_iff s swm hswm] at hinv
        simp only [applyOp, editSecretStarted, hswm, opSafe] at hsafe ⊢
        rw [hiddenKeysSubset_some_iff _ _ rfl]
        intro j hj
        cases hact : params.action with
        | addOrOverwriteKeyValue v =>
          rw [hact] at hsafe
          simp only [editHidden, hact] at hj
          simp only [editSecret, hact]
          exact objKeys_objSet_superset _ _ _ _ (hinv j hj)
        | removeKeyValue =>
          rw [hact] at hsafe
          simp only [editHidden, hact] at hj
          have hkey : params.key ∉ s.hiddenKeys := by simpa using hsafe
          have hnk : j ≠ params.key := fun he => hkey (he ▸ hj)
          simp only [editSecret, hact]
          exact mem_objKeys_objDelete _ _ _ (hinv j hj) hnk
        | renameKey nk =>
          rw [hact] at hsafe
          simp only [editHidden, hact] at hj
          have hkey : params.key ∉ s.hiddenKeys := by simpa using hsafe
          have hnk : j ≠ params.key := fun he => hkey (he ▸ hj)
          simp only [editSecret, hact]
          exact mem_objKeys_renameKey _ _ _ _ (hinv j hj) hnk
        | renameKeyAndUpdateValue nk nv =>
          rw [hact] at hsafe
          simp only [editHidden, hact] at hj
          have hkey : params.key ∉ s.hiddenKeys := by simpa using hsafe
          have hnk : j ≠ params.key := fun he => hkey (he ▸ hj)
          simp only [editSecret, hact]
          exact objKeys_objSet_superset _ _ _ _
            (mem_objKeys_renameKey _ _ _ _ (hinv j hj) hnk)
        | hideOrRevealKey t =>
          rw [hact] at hsafe
          simp only [editHidden, hact] at hj
          simp only [editSecret, hact]
          cases t with
          | hide =>
            rcases List.mem_append.mp hj with hmem | hmem
            · exact hinv j hmem
            · rw [List.mem_singleton.mp hmem]
              simpa using hsafe
          | reveal =>
            exact hinv j (List.mem_filter.mp hj).1

/--
C2 (amended): `hiddenKeys` stays a subset of the loaded secret's declared
keys along every dispatch sequence whose payloads respect `opSafe`
(`openCompleted` payloads already satisfy the subset property, `hide` only
targets declared keys, and removals/renames never target a currently
hidden key).  Without those side conditions the code does not enforce the
subset property (see the counterexample).
-/
theorem hidden_subset_of_reachableOk (state : Option SecretsEditorState)
    (h : ReachableOk state) : hiddenKeysSubset state = true := by
  induction h with
  | init => rfl
  | step s op _ hsafe ih => exact hiddenKeysSubset_applyOp s op ih hsafe

/--
C2 counterexample: open a secret `{a: "1"}` and hide the undeclared key
`b`; the reducer pushes `b` into `hiddenKeys` without any membership check,
so the reachable state violates "hiddenKeys is a subset of the declared
keys".
-/
theorem hidden_subset_counterexample :
    hiddenKeysSubset
      (applyOp (applyOp (applyOp none (.openStartedOp ("d") ("b")))
          (.openCompletedOp
            { secret := [(("a"), .str ("1"))]
              metadata := { created_time := ("t"), version := 1 } } []))
          (.editSecretStartedOp
            { key := ("b"), action := .hideOrRevealKey .hide }))
      = false := rfl

/-- Witness for the amended C2 theorem: a concrete three-step safe
dispatch sequence hiding a declared key. -/
theorem hidden_subset_witness :
    hiddenKeysSubset
      (applyOp (applyOp (applyOp none (.openStartedOp ("d") ("b")))
          (.openCompletedOp
            { secret := [(("a"), .str ("1"))]
              metadata := { created_time := ("t"), version := 1 } } []))
          (.editSecretStartedOp
            { key := ("a"), action := .hideOrRevealKey .hide }))
      = true :=
  hidden_subset_of_reachableOk _
    (ReachableOk.step _ _
      (ReachableOk.step _ _
        (ReachableOk.step _ _ ReachableOk.init (by decide))
        (by decide))
      (by decide))

/--
C7 (amended): every `EditSecretParams` dispatched through
`editCurrentlyShownSecret` that is not discarded by the no-op
"Optimizations" check first dispatches the in-memory transformation
(`editSecretStarted`) and then issues exactly one `put` call, whose secret
is built from the post-edit state; a no-op edit (see the counterexample)
issues no dispatch and no network call.
-/
theorem editPut_eq (params : EditSecretParams) (path : String)
    (secret : Obj) (hidden : List String) (r : RemoteResult Unit)
    (hskip : shouldSkipEdit secret params = false) :
    (editCurrentlyShownSecret params path secret hidden r).2
      = some { path := path
               secret := putPayloadSecret (editSecret secret params)
                           (editHidden hidden params) } := by
  simp [editCurrentlyShownSecret, hskip]

theorem edit_dispatches_then_puts (params : EditSecretParams)
    (path : String) (secret : Obj) (hidden : List String)
    (r : RemoteResult Unit)
    (hskip : shouldSkipEdit secret params = false) :
    (editCurrentlyShownSecret params path secret hidden r).2
      = some { path := path
               secret := putPayloadSecret (editSecret secret params)
                           (editHidden hidden params) } ∧
    (editCurrentlyShownSecret params path secret hidden r).1.head?
      = some (.editSecretStartedEvt params) := by
  refine ⟨editPut_eq params path secret hidden r hskip, ?_⟩
  simp [editCurrentlyShownSecret, hskip]

/--
C7 counterexample: overwriting the key `a` with its current value `"1"` is
an edit dispatched while a secret is shown, yet the optimization block
returns early: nothing is dispatched and no `put` (network call) is made,
so not "every edit operation is followed by exactly one network call".
-/
theorem noop_edit_makes_no_call :
    editCurrentlyShownSecret
        { key := ("a"), action := .addOrOverwriteKeyValue ("1") }
        ("p") [(("a"), .str ("1"))] [] (.ok ())
      = ([], none) := rfl

/-- Witness for the amended C7 theorem at a concrete non-no-op edit. -/
theorem edit_dispatches_then_puts_witness :
    (editCurrentlyShownSecret
        { key := ("a"), action := .addOrOverwriteKeyValue ("2") }
        ("p") [(("a"), JsVal.str ("1"))] [] (.ok ())).2
      = some { path := ("p")
               secret := putPayloadSecret
                 (editSecret [(("a"), JsVal.str ("1"))]
                   { key := ("a"), action := .addOrOverwriteKeyValue ("2") })
                 [] } ∧
    (editCurrentlyShownSecret
        { key := ("a"), action := .addOrOverwriteKeyValue ("2") }
        ("p") [(("a"), JsVal.str ("1"))] [] (.ok ())).1.head?
      = some (.editSecretStartedEvt
          { key := ("a"), action := .addOrOverwriteKeyValue ("2") }) :=
  edit_dispatches_then_puts
    { key := ("a"), action := .addOrOverwriteKeyValue ("2") }
    ("p") [(("a"), JsVal.str ("1"))] [] (.ok ()) (by decide)

/--
C3 (amended): for every non-no-op edit persisted by
`editCurrentlyShownSecret`, when the current (post-edit) secret has no
`.onyxia` key, the `put` payload is exactly that secret extended with one
extra `.onyxia` entry holding the current `hiddenKeys` and a
`keysOrdering` equal to the current secret's keys in order; when the
post-edit secret itself contains a `.onyxia` key the payload instead
overwrites that entry in place (see the counterexample).
-/
theorem put_payload_extends_secret (params : EditSecretParams)
    (path : String) (secret : Obj) (hidden : List String)
    (r : RemoteResult Unit)
    (hskip : shouldSkipEdit secret params = false)
    (hnew : extraKey ∉ objKeys (editSecret secret params)) :
    (editCurrentlyShownSecret params path secret hidden r).2
      = some { path := path
               secret := editSecret secret params ++
                 [(extraKey,
                   extraValue (editHidden hidden params)
                     (objKeys (editSecret secret params)))] } := by
  have h := editPut_eq params path secret hidden r hskip
  rw [h, putPayloadSecret, objSet_of_not_mem _ _ _ hnew]

/--
C3 counterexample: adding the key `.onyxia` itself (value `"x"`) and
persisting it produces a `put` payload that is *not* the current secret
record `{".onyxia": "x"}` extended with an extra bookkeeping entry — the
user's entry is overwritten in place and the payload has a single entry.
-/
theorem put_payload_clobbers_onyxia_key :
    (editCurrentlyShownSecret
        { key := (".onyxia"), action := .addOrOverwriteKeyValue ("x") }
        ("p") [] [] (.ok ())).2
      ≠ some { path := ("p")
               secret := editSecret []
                   { key := (".onyxia"), action := .addOrOverwriteKeyValue ("x") } ++
                 [(extraKey, extraValue [] [(".onyxia")])] } := by
  intro h
  rw [show (editCurrentlyShownSecret
        { key := (".onyxia"), action := .addOrOverwriteKeyValue ("x") }
        ("p") [] [] (.ok ())).2
      = some { path := ("p")
               secret := [((".onyxia"), extraValue [] [(".onyxia")])] }
    from rfl] at h
  rw [show editSecret []
        { key := (".onyxia"), action := .addOrOverwriteKeyValue ("x") }
      = [((".onyxia"), JsVal.str ("x"))] from rfl] at h
  simp only [Option.some.injEq, PutParams.mk.injEq, List.cons_append,
    List.nil_append, List.cons.injEq, Prod.mk.injEq, true_and] at h
  exact JsVal.noConfusion h.1

/-- Witness for the amended C3 theorem at a concrete fresh-key edit. -/
theorem put_payload_extends_secret_witness :
    (editCurrentlyShownSecret
        { key := ("k"), action := .addOrOverwriteKeyValue ("v") }
        ("p") [] [] (.ok ())).2
      = some { path := ("p")
               secret := [(("k"), JsVal.str ("v"))] ++
                 [(extraKey, extraValue [] [("k")])] } :=
  put_payload_extends_secret
    { key := ("k"), action := .addOrOverwriteKeyValue ("v") }
    ("p") [] [] (.ok ()) (by decide) (by decide)

/--
C5: a failed remote `get` (in `openSecret`) or `put` (in
`editCurrentlyShownSecret`) makes the thunk dispatch exactly one error
event carrying the request's error message and nothing else after the
initial start/edit dispatch: the full traces are written out, and in both
traces the error events are exactly `[errorOcurred msg]` and no
success/completion event occurs, whatever the message.
-/
theorem failures_surface_as_single_error (d b p path msg : String)
    (params : EditSecretParams) (secret : Obj) (hidden : List String)
    (hskip : shouldSkipEdit secret params = false) :
    openSecret d b p (.err msg)
      = [.openStartedEvt d b, .errorOcurred msg] ∧
    (openSecret d b p (.err msg)).filter isErrorEvent
      = [.errorOcurred msg] ∧
    (openSecret d b p (.err msg)).filter isSuccessEvent = [] ∧
    (editCurrentlyShownSecret params path secret hidden (.err msg)).1
      = [.editSecretStartedEvt params, .errorOcurred msg] ∧
    ((editCurrentlyShownSecret params path secret hidden (.err msg)).1).filter
        isErrorEvent = [.errorOcurred msg] ∧
    ((editCurrentlyShownSecret params path secret hidden (.err msg)).1).filter
        isSuccessEvent = [] := by
    refine ⟨rfl, rfl, rfl, ?_, ?_, ?_⟩ <;>
      simp [editCurrentlyShownSecret, hskip, isErrorEvent, isSuccessEvent]

/-- Witness for the C5 theorem at a concrete failing edit (hide/reveal
edits are never discarded by the optimization block). -/
theorem failures_single_error_witness :
    openSecret ("d") ("b") ("p") (.err ("boom"))
      = [.openStartedEvt ("d") ("b"), .errorOcurred ("boom")] ∧
    (openSecret ("d") ("b") ("p") (.err ("boom"))).filter isErrorEvent
      = [.errorOcurred ("boom")] ∧
    (openSecret ("d") ("b") ("p") (.err ("boom"))).filter isSuccessEvent
      = [] ∧
    (editCurrentlyShownSecret
        { key := ("a"), action := .hideOrRevealKey .hide }
        ("p") [] [] (.err ("boom"))).1
      = [.editSecretStartedEvt { key := ("a"), action := .hideOrRevealKey .hide },
         .errorOcurred ("boom")] ∧
    ((editCurrentlyShownSecret
        { key := ("a"), action := .hideOrRevealKey .hide }
        ("p") [] [] (.err ("boom"))).1).filter isErrorEvent
      = [.errorOcurred ("boom")] ∧
    ((editCurrentlyShownSecret
        { key := ("a"), action := .hideOrRevealKey .hide }
        ("p") [] [] (.err ("boom"))).1).filter isSuccessEvent
      = [] :=
  failures_surface_as_single_error ("d") ("b") ("p") ("p") ("boom")
    { key := ("a"), action := .hideOrRevealKey .hide } [] [] (by decide)

/--
C4: round-trip of the persisted bookkeeping format.  For every secret
record `s` without a `.onyxia` key (and, JavaScript objects being
duplicate-free, with `Nodup` keys) and every `hiddenKeys` list `h`,
writing the `put` payload and then applying `openSecret`'s extraction and
reordering to the stored payload recovers the hidden keys `h`, a
`keysOrdering` equal to `s`'s keys, and a displayed secret equal to `s`
(same keys, values and order, no `.onyxia` entry).
-/
theorem put_open_roundtrip (s : Obj) (h : List String)
    (hnd : (objKeys s).Nodup) (hnew : extraKey ∉ objKeys s) :
    (extractExtra (putPayloadSecret s h)).1 = h ∧
    (extractExtra (putPayloadSecret s h)).2 = objKeys s ∧
    orderSecret (putPayloadSecret s h)
        (extractExtra (putPayloadSecret s h)).2 = s := by
  have hp : putPayloadSecret s h
      = s ++ [(extraKey, extraValue h (objKeys s))] := by
    rw [putPayloadSecret, objSet_of_not_mem _ _ _ hnew]
  have hget : objGet (putPayloadSecret s h) extraKey
      = some (extraValue h (objKeys s)) := by
    rw [hp, objGet_append_right _ _ _ hnew]
    simp [objGet]
  have hkeysp : objKeys (putPayloadSecret s h) = objKeys s ++ [extraKey] := by
    rw [hp]; simp [objKeys]
  have hex : extractExtra (putPayloadSecret s h) = (h, objKeys s) := by
    unfold extractExtra
    rw [hget]
    simp only [extraValue, objGet, List.find?,
      show ((("hiddenKeys") : String) == (("hiddenKeys") : String)) = true
        from rfl,
      show ((("hiddenKeys") : String) == (("keysOrdering") : String)) = false
        from rfl,
      show ((("keysOrdering") : String) == (("hiddenKeys") : String)) = false
        from rfl,
      show ((("keysOrdering") : String) == (("keysOrdering") : String)) = true
        from rfl,
      Option.map_some', asStringArray, asStringList_map_str]
    rw [List.filter_eq_self.mpr ?_]
    intro a ha
    simp [objHasKey, hkeysp, ha]
  have ho1 : objDelete (putPayloadSecret s h) extraKey = s := by
    rw [hp, objDelete, List.filter_append]
    rw [show List.filter (fun kv => kv.1 != extraKey)
          [(extraKey, extraValue h (objKeys s))] = [] by simp]
    rw [List.filter_eq_self.mpr ?_, List.append_nil]
    intro kv hkv
    simp only [bne_iff_ne, ne_eq]
    intro he
    exact hnew (he ▸ List.mem_map_of_mem Prod.fst hkv)
  have ho2 : (objKeys s).foldl (fun acc key => objDelete acc key) s = [] :=
    foldl_objDelete_eq_nil (objKeys s) s
      (fun kv hkv => List.mem_map_of_mem Prod.fst hkv)
  have hfold : (objKeys s).foldl
      (fun acc key =>
        objSet acc key ((objGet (putPayloadSecret s h) key).getD .undef)) []
      = s := by
    have := foldl_objSet_getD (putPayloadSecret s h) s [] hnd ?_ ?_
    · simpa using this
    · intro kv hkv
      rw [hp]
      exact objGet_append_left _ _ _ _ (objGet_of_mem_nodup s kv hnd hkv)
    · intro kv _ hmem
      simp [objKeys] at hmem
  refine ⟨by rw [hex], by rw [hex], ?_⟩
  rw [hex]
  show (objKeys s).foldl
      (fun acc key =>
        objSet acc key ((objGet (putPayloadSecret s h) key).getD .undef))
      ((objKeys s).foldl (fun acc key => objDelete acc key)
        (objDelete (putPayloadSecret s h) extraKey)) = s
  rw [ho1, ho2, hfold]

/-- Witness for the C4 round-trip theorem at a concrete secret. -/
theorem put_open_roundtrip_witness :
    (extractExtra (putPayloadSecret
        [(("a"), JsVal.str ("1")), (("b"), JsVal.str ("2"))] [("b")])).1
      = [("b")] ∧
    (extractExtra (putPayloadSecret
        [(("a"), JsVal.str ("1")), (("b"), JsVal.str ("2"))] [("b")])).2
      = objKeys [(("a"), JsVal.str ("1")), (("b"), JsVal.str ("2"))] ∧
    orderSecret
        (putPayloadSecret
          [(("a"), JsVal.str ("1")), (("b"), JsVal.str ("2"))] [("b")])
        (extractExtra (putPayloadSecret
          [(("a"), JsVal.str ("1")), (("b"), JsVal.str ("2"))] [("b")])).2
      = [(("a"), JsVal.str ("1")), (("b"), JsVal.str ("2"))] :=
  put_open_roundtrip [(("a"), JsVal.str ("1")), (("b"), JsVal.str ("2"))]
    [("b")] (by decide) (by decide)

/--
C10: `openSecret`'s extraction is total and its fallback covers every
stored secret whose `.onyxia` entry is absent or malformed in the claim's
sense (entry missing or not an object, `hiddenKeys` or `keysOrdering`
missing, not an array, or containing a non-string anywhere): every secret
with `extraEntryWellFormed` false yields no hidden keys and a
`keysOrdering` equal to all of the stored secret's keys in stored order,
and every well-formed secret yields its stored hidden keys and its stored
`keysOrdering` filtered to keys actually present in the secret.
-/
theorem extraction_falls_back (secret : Obj) :
    (extraEntryWellFormed secret = false →
      extractExtra secret = ([], objKeys secret)) ∧
    (extraEntryWellFormed secret = true →
      ∃ (fields : List (String × JsVal)) (h k : List String),
        objGet secret extraKey = some (.obj fields) ∧
        objGet fields ("hiddenKeys") = some (.arr (h.map JsVal.str)) ∧
        objGet fields ("keysOrdering") = some (.arr (k.map JsVal.str)) ∧
        extractExtra secret
          = (h, k.filter (fun key => objHasKey secret key))) := by
  constructor
  · intro hwf
    cases hx : objGet secret extraKey with
    | none => unfold extractExtra; rw [hx]
    | some v =>
      cases v with
      | undef => unfold extractExtra; rw [hx]
      | str s => unfold extractExtra; rw [hx]
      | arr a => unfold extractExtra; rw [hx]
      | obj fields =>
        unfold extraEntryWellFormed at hwf
        rw [hx] at hwf
        simp only [] at hwf
        cases hh : objGet fields ("hiddenKeys") with
        | none =>
          unfold extractExtra
          rw [hx]
          simp only []
          rw [hh]
        | some hv =>
          cases hk2 : objGet fields ("keysOrdering") with
          | none =>
            unfold extractExtra
            rw [hx]
            simp only []
            rw [hh, hk2]
          | some kv =>
            rw [hh, hk2] at hwf
            simp only [] at hwf
            rw [isStringArray_eq_isSome, isStringArray_eq_isSome] at hwf
            cases hb1 : asStringArray hv with
            | none =>
              unfold extractExtra
              rw [hx]
              simp only []
              rw [hh, hk2]
              simp only []
              rw [hb1]
            | some h0 =>
              cases hb2 : asStringArray kv with
              | none =>
                unfold extractExtra
                rw [hx]
                simp only []
                rw [hh, hk2]
                simp only []
                rw [hb1, hb2]
              | some k0 => simp [hb1, hb2] at hwf
  · intro hwf
    cases hx : objGet secret extraKey with
    | none =>
      unfold extraEntryWellFormed at hwf
      rw [hx] at hwf
      simp at hwf
    | some v =>
      cases v with
      | undef =>
        unfold extraEntryWellFormed at hwf
        rw [hx] at hwf
        simp at hwf
      | str s =>
        unfold extraEntryWellFormed at hwf
        rw [hx] at hwf
        simp at hwf
      | arr a =>
        unfold extraEntryWellFormed at hwf
        rw [hx] at hwf
        simp at hwf
      | obj fields =>
        unfold extraEntryWellFormed at hwf
        rw [hx] at hwf
        simp only [] at hwf
        cases hh : objGet fields ("hiddenKeys") with
        | none => rw [hh] at hwf; simp at hwf
        | some hv =>
          cases hk2 : objGet fields ("keysOrdering") with
          | none => rw [hh, hk2] at hwf; simp at hwf
          | some kv =>
            rw [hh, hk2] at hwf
            simp only [] at hwf
            rw [isStringArray_eq_isSome, isStringArray_eq_isSome,
                Bool.and_eq_true] at hwf
            obtain ⟨hs1, hs2⟩ := hwf
            obtain ⟨h0, hb1⟩ := Option.isSome_iff_exists.mp hs1
            obtain ⟨k0, hb2⟩ := Option.isSome_iff_exists.mp hs2
            have hv_eq := asStringArray_eq_some hv h0 hb1
            have kv_eq := asStringArray_eq_some kv k0 hb2
            refine ⟨fields, h0, k0, rfl, by rw [← hv_eq]; exact hh,
              by rw [← kv_eq]; exact hk2, ?_⟩
            unfold extractExtra
            rw [hx]
            simp only []
            rw [hh, hk2, hv_eq, kv_eq]
            simp only [asStringArray, asStringList_map_str]

/-- Witness for the C10 extraction theorem: a stored secret whose
`keysOrdering` field is an array containing a non-string element (while
`hiddenKeys` is well formed) falls back to no hidden keys and the stored
key order. -/
theorem extraction_falls_back_witness :
    extractExtra
        [((".onyxia"),
          JsVal.obj [(("hiddenKeys"), JsVal.arr [JsVal.str ("x")]),
                     (("keysOrdering"),
                      JsVal.arr [JsVal.str ("a"), JsVal.undef])]),
         (("a"), JsVal.str ("1"))]
      = ([], [(".onyxia"), ("a")]) :=
  (extraction_falls_back
      [((".onyxia"),
        JsVal.obj [(("hiddenKeys"), JsVal.arr [JsVal.str ("x")]),
                   (("keysOrdering"),
                    JsVal.arr [JsVal.str ("a"), JsVal.undef])]),
       (("a"), JsVal.str ("1"))]).1 rfl

/-- Witness for the C6 theorem at a concrete already-hidden key. -/
theorem hide_adds_key_witness :
    editSecretStarted
        (some (mkState ("d") ("b")
          (some { secret := [(("a"), JsVal.str ("1"))]
                  metadata := { created_time := ("t"), version := 1 } })
          [("a")] false))
        { key := ("a"), action := .hideOrRevealKey .hide }
      = some (mkState ("d") ("b")
          (some { secret := [(("a"), JsVal.str ("1"))]
                  metadata := { created_time := ("t"), version := 1 } })
          ([("a")] ++ [("a")]) true) ∧
    ([("a")] ++ [("a")]).toFinset = [("a")].toFinset :=
  ⟨(hide_adds_key_to_hidden_set ("d") ("b")
      { secret := [(("a"), JsVal.str ("1"))]
        metadata := { created_time := ("t"), version := 1 } }
      [("a")] false ("a")).1,
   (hide_adds_key_to_hidden_set ("d") ("b")
      { secret := [(("a"), JsVal.str ("1"))]
        metadata := { created_time := ("t"), version := 1 } }
      [("a")] false ("a")).2.2 (by decide)⟩

/-- Witness for the C9 theorem at a concrete hidden key. -/
theorem reveal_filters_witness :
    editSecretStarted
        (some (mkState ("d") ("b")
          (some { secret := [(("a"), JsVal.str ("1"))]
                  metadata := { created_time := ("t"), version := 1 } })
          [("a")] false))
        { key := ("a"), action := .hideOrRevealKey .reveal }
      = some (mkState ("d") ("b")
          (some { secret := [(("a"), JsVal.str ("1"))]
                  metadata := { created_time := ("t"), version := 1 } })
          ([("a")].filter (fun j => j != ("a"))) true) ∧
    ¬ ([("a")] ++ [("a")]).Nodup :=
  ⟨(reveal_filters_hide_appends ("d") ("b")
      { secret := [(("a"), JsVal.str ("1"))]
        metadata := { created_time := ("t"), version := 1 } }
      [("a")] false ("a")).1,
   (reveal_filters_hide_appends ("d") ("b")
      { secret := [(("a"), JsVal.str ("1"))]
        metadata := { created_time := ("t"), version := 1 } }
      [("a")] false ("a")).2.2.2.2.2 (by decide)⟩

end SecretsEditor
